import Mathlib

/-!
Verification of the rule-based halal classifier (scripts/halal_classifier.py).

Strings are modelled as lists of Unicode characters (`List Char`), matching
Python's view of `str` as a sequence of code points.  Values that may be
non-strings (pandas cells can hold `None`, `NaN` or numbers) are modelled by
the inductive type `PyVal`.  Functions that can raise a `KeyError` return
`Except Unit`.  Whitespace is modelled by the ASCII whitespace characters
recognised both by Python's `str.strip` and by the regex class used in
`normalize`; case folding is modelled on ASCII letters.
-/

open List

namespace HalalClassifier

/-- Whitespace test modelling the characters matched by Python's
regex class for whitespace and by `str.strip`:
space, tab, newline, carriage return, vertical tab and form feed. -/
def isPySpace (c : Char) : Bool :=
  c.toNat = 32 || c.toNat = 9 || c.toNat = 10 || c.toNat = 13 ||
    c.toNat = 11 || c.toNat = 12

/-- Case folding of a single character, modelling `str.lower` on the ASCII
range: an uppercase ASCII letter is shifted by 32, everything else is kept. -/
def pyLower (c : Char) : Char :=
  if 65 ≤ c.toNat ∧ c.toNat ≤ 90 then Char.ofNat (c.toNat + 32) else c

/-- Leading and trailing whitespace removal, modelling `str.strip`. -/
def stripChars (l : List Char) : List Char :=
  ((l.dropWhile isPySpace).reverse.dropWhile isPySpace).reverse

/-- Values a classifier input cell can hold: a string, Python `None`,
a pandas `NaN`, or a number. -/
inductive PyVal where
  | str : List Char → PyVal
  | noneVal : PyVal
  | nanVal : PyVal
  | intVal : Int → PyVal
deriving DecidableEq

/-- Embedding of `normalize` (halal_classifier.py lines 16-21): a non-string
input maps to the empty string; a string is stripped, lowercased, and then
every whitespace character is removed (`re.sub` of one-or-more whitespace
characters by the empty string deletes every whitespace character). -/
def normalize (text : PyVal) : List Char :=
  match text with
  | PyVal.str s => ((stripChars s).map pyLower).filter (fun c => !(isPySpace c))
  | _ => []

/-- Shorthand for `normalize` applied to a value that is known to be a
string, as happens for rule keywords and override keys. -/
def normStr (s : List Char) : List Char :=
  normalize (PyVal.str s)

/-- Substring test on character lists, modelling Python's `in` operator on
strings: `strContains t sub` holds when `sub` occurs contiguously in `t`. -/
def strContains (t sub : List Char) : Bool :=
  match t with
  | [] => sub.isEmpty
  | c :: rest => sub.isPrefixOf (c :: rest) || strContains rest sub

/-- Embedding of `keyword_match` (halal_classifier.py lines 79-85): the
keyword is normalized; an empty normalized keyword never matches; a
single-character normalized keyword matches only by equality with the
subject; a longer one matches as a substring of the subject. -/
def keyword_match (normalized_text keyword : List Char) : Bool :=
  let normalized_keyword := normStr keyword
  if normalized_keyword = [] then false
  else if normalized_keyword.length = 1 then
    decide (normalized_text = normalized_keyword)
  else strContains normalized_text normalized_keyword

/-- Model of `pandas.isna` restricted to the values of `PyVal`: `None` and
`NaN` are missing, strings and numbers are not. -/
def isna (v : PyVal) : Bool :=
  match v with
  | PyVal.noneVal => true
  | PyVal.nanVal => true
  | _ => false

/-- Embedding of `should_update` (halal_classifier.py lines 118-125). -/
def should_update (existing_status : PyVal) (overwrite : Bool) : Bool :=
  if overwrite then true
  else if isna existing_status then true
  else
    match existing_status with
    | PyVal.str s => decide (stripChars s = [])
    | _ => false

/-- State of the comment-stripping scanner of `strip_json_comments`
(halal_classifier.py lines 24-69).  `normal` is the loop with
`in_string = False`; `inString e` is the loop with `in_string = True` and
`escaped = e`; `lineComment` is the inner loop skipping to the next newline
or carriage return; `blockComment` is the inner loop skipping to the next
star-slash pair. -/
inductive ScanMode where
  | normal : ScanMode
  | inString : Bool → ScanMode
  | lineComment : ScanMode
  | blockComment : ScanMode
deriving DecidableEq

/-- Embedding of the scanning loop of `strip_json_comments`
(halal_classifier.py lines 32-67), written as a state machine over the
remaining input.  The two inner skipping loops become the `lineComment` and
`blockComment` modes.  The line-comment loop stops at a newline or carriage
return without consuming it, so that character is emitted by the `normal`
mode.  The block-comment loop stops either at a star-slash pair, which it
consumes, or when fewer than two characters remain; in the latter case the
index is not advanced past the last character, so a final character left
alone by an unterminated block comment is re-processed by the `normal` loop
and therefore emitted (this mirrors the source's
`i += 2 if i + 1 < n else 0` exactly). -/
def scanGo (mode : ScanMode) (s : List Char) : List Char :=
  match mode, s with
  | _, [] => []
  | ScanMode.inString true, c :: rest => c :: scanGo (ScanMode.inString false) rest
  | ScanMode.inString false, c :: rest =>
      if c = '\\' then c :: scanGo (ScanMode.inString true) rest
      else if c = '"' then c :: scanGo ScanMode.normal rest
      else c :: scanGo (ScanMode.inString false) rest
  | ScanMode.lineComment, c :: rest =>
      if c = '\n' ∨ c = '\r' then c :: scanGo ScanMode.normal rest
      else scanGo ScanMode.lineComment rest
  | ScanMode.blockComment, [c] => [c]
  | ScanMode.blockComment, c :: d :: rest2 =>
      if c = '*' ∧ d = '/' then scanGo ScanMode.normal rest2
      else scanGo ScanMode.blockComment (d :: rest2)
  | ScanMode.normal, '/' :: '/' :: rest2 => scanGo ScanMode.lineComment rest2
  | ScanMode.normal, '/' :: '*' :: rest2 => scanGo ScanMode.blockComment rest2
  | ScanMode.normal, c :: rest =>
      if c = '"' then c :: scanGo (ScanMode.inString false) rest
      else c :: scanGo ScanMode.normal rest

/-- Embedding of `strip_json_comments` (halal_classifier.py lines 24-69):
the scanner started outside of any string. -/
def strip_json_comments (raw_text : List Char) : List Char :=
  scanGo ScanMode.normal raw_text

/-- Absence of comment markers, read off the specification: `noComment
ScanMode.normal s` holds when `s` contains no slash-slash and no slash-star
pair outside of double-quoted strings, where strings are delimited by
unescaped double quotes exactly as in the scanner. -/
def noComment (mode : ScanMode) (s : List Char) : Bool :=
  match mode, s with
  | _, [] => true
  | ScanMode.inString true, _ :: rest => noComment (ScanMode.inString false) rest
  | ScanMode.inString false, c :: rest =>
      if c = '\\' then noComment (ScanMode.inString true) rest
      else if c = '"' then noComment ScanMode.normal rest
      else noComment (ScanMode.inString false) rest
  | ScanMode.lineComment, _ :: _ => false
  | ScanMode.blockComment, _ :: _ => false
  | ScanMode.normal, c :: rest =>
      if c = '"' then noComment (ScanMode.inString false) rest
      else if c = '/' ∧ (rest.head? = some '/' ∨ rest.head? = some '*') then false
      else noComment ScanMode.normal rest

/-- Decomposition of the input as seen from inside a double-quoted string
with escape flag `e`: the first component is the span of characters up to
and including the closing unescaped quote (the whole input when the string
never closes), the second is the remainder after the closing quote. -/
def splitStr (e : Bool) (s : List Char) : List Char × List Char :=
  match e, s with
  | _, [] => ([], [])
  | true, c :: rest => ((c :: (splitStr false rest).1), (splitStr false rest).2)
  | false, c :: rest =>
      if c = '\\' then (c :: (splitStr true rest).1, (splitStr true rest).2)
      else if c = '"' then ([c], rest)
      else (c :: (splitStr false rest).1, (splitStr false rest).2)

/-- One entry of `overrides.exact`: an object with a mandatory `status` key
and an optional `reason` key. -/
structure OverrideEntry where
  status : List Char
  reason : Option (List Char)
deriving DecidableEq

/-- The `rules` object: three keyword tiers.  The source reads each tier
with `rules.get(tier, [])`, so an absent tier is the same as an empty
list and the three lists are total fields. -/
structure Rules where
  haram_contains : List (List Char)
  review_contains : List (List Char)
  halal_contains : List (List Char)
deriving DecidableEq

/-- The parsed configuration dictionary.  `status_labels` and `rules` are
`Option`s because the source accesses them with a bare dict subscript that
raises a `KeyError` when the key is absent; `overrides_exact` is read with
`ruleset.get("overrides", ...).get("exact", ...)` and silently defaults to
empty.  Dictionaries preserve insertion order, hence association lists. -/
structure Ruleset where
  status_labels : Option (List (List Char × List Char))
  rules : Option Rules
  overrides_exact : List (List Char × OverrideEntry)
deriving DecidableEq

/-- Dictionary lookup `labels[key]` on an association list, as an `Option`;
`Option.none` models a raised `KeyError`. -/
def lookupLabel (labels : List (List Char × List Char)) (key : List Char) :
    Option (List Char) :=
  match labels with
  | [] => Option.none
  | kv :: rest => if kv.1 = key then some kv.2 else lookupLabel rest key

/-- The first override entry whose normalized key equals the normalized
input, in dictionary order, modelling the first loop of
`classify_material`. -/
def findOverride (normalized : List Char)
    (overrides : List (List Char × OverrideEntry)) : Option OverrideEntry :=
  match overrides with
  | [] => Option.none
  | kv :: rest =>
      if normStr kv.1 = normalized then some kv.2 else findOverride normalized rest

/-- The first keyword of a tier that matches the normalized input, in list
order, modelling the keyword loops of `classify_material`. -/
def findKeyword (normalized : List Char) (tier : List (List Char)) :
    Option (List Char) :=
  match tier with
  | [] => Option.none
  | kw :: rest =>
      if keyword_match normalized kw then some kw else findKeyword normalized rest

/-- The fixed default reason used when an override provides none
(Korean for "exact-match override"). -/
def defaultOverrideReason : List Char := "정확 일치 오버라이드".data

/-- Text prepended to a matched haram keyword in the reason field. -/
def haramReasonText : List Char := "하람 키워드 포함: ".data

/-- Text prepended to a matched review keyword in the reason field. -/
def reviewReasonText : List Char := "추가 검토 필요 키워드 포함: ".data

/-- Text prepended to a matched halal keyword in the reason field. -/
def halalReasonText : List Char := "할랄 키워드 포함: ".data

/-- Embedding of `classify_material` (halal_classifier.py lines 88-115):
look up the two mandatory configuration keys (raising on absence), take the
string input or the empty string, normalize it, then try exact overrides,
the haram tier, the review tier and the halal tier in that order, returning
at the first match; an unmatched input yields the pair of two absent
values.  `Except.error ()` models a raised `KeyError`. -/
def classify_material (material_name : PyVal) (ruleset : Ruleset) :
    Except Unit (Option (List Char) × Option (List Char)) :=
  match ruleset.status_labels with
  | Option.none => Except.error ()
  | some status_labels =>
  match ruleset.rules with
  | Option.none => Except.error ()
  | some rules =>
  let raw : List Char := match material_name with | PyVal.str s => s | _ => []
  let normalized : List Char := normStr raw
  match findOverride normalized ruleset.overrides_exact with
  | some value =>
      match lookupLabel status_labels value.status with
      | Option.none => Except.error ()
      | some label =>
          Except.ok (some label, some (value.reason.getD defaultOverrideReason))
  | Option.none =>
  match findKeyword normalized rules.haram_contains with
  | some keyword =>
      match lookupLabel status_labels "haram".data with
      | Option.none => Except.error ()
      | some label => Except.ok (some label, some (haramReasonText ++ keyword))
  | Option.none =>
  match findKeyword normalized rules.review_contains with
  | some keyword =>
      match lookupLabel status_labels "review".data with
      | Option.none => Except.error ()
      | some label => Except.ok (some label, some (reviewReasonText ++ keyword))
  | Option.none =>
  match findKeyword normalized rules.halal_contains with
  | some keyword =>
      match lookupLabel status_labels "halal".data with
      | Option.none => Except.error ()
      | some label => Except.ok (some label, some (halalReasonText ++ keyword))
  | Option.none => Except.ok (Option.none, Option.none)

/-- Embedding of `load_rules` (halal_classifier.py lines 72-76): read the
configuration text, strip comments, parse as JSON.  File input and
`json.loads` are outside the source; the parser is passed in as `loads` and
its verdict on the comment-stripped text is returned unchanged — the
source applies no validation of its own to the parsed configuration. -/
def load_rules (loads : List Char → Except Unit Ruleset) (raw_text : List Char) :
    Except Unit Ruleset :=
  loads (strip_json_comments raw_text)

/-- Example label table used in concrete checks. -/
def labelsEx : List (List Char × List Char) :=
  [("haram".data, "HARAM".data), ("review".data, "REVIEW".data),
   ("halal".data, "HALAL".data)]

/-- Example keyword tiers used in concrete checks. -/
def rulesEx : Rules := ⟨["pork".data], [], ["water".data]⟩

/-- Example ruleset used in concrete checks: one exact override and the
tiers of `rulesEx`. -/
def rsEx : Ruleset :=
  ⟨some labelsEx, some rulesEx,
   [("Beef Extract".data, ⟨"review".data, Option.none⟩)]⟩

/-- Example ruleset parsed from a configuration with no keys at all. -/
def emptyRuleset : Ruleset := ⟨Option.none, Option.none, []⟩

/-- Model of the verdict of `json.loads` (standard library, outside the
source) on the two-character text consisting of an opening and a closing
curly brace: that text is valid JSON and parses to the empty object, a
configuration with no keys at all; every other text is rejected.  Used only
to exhibit one concrete valid-JSON configuration that lacks the
`status_labels` and `rules` keys. -/
def jsonLoadsEmptyObject : List Char → Except Unit Ruleset :=
  fun t =>
    if t = [Char.ofNat 123, Char.ofNat 125] then Except.ok emptyRuleset
    else Except.error ()

/-- The two-character text of an empty JSON object: an opening curly brace
followed by a closing curly brace. -/
def emptyObjectText : List Char := [Char.ofNat 123, Char.ofNat 125]

section NormalizerLemmas

/-- Characters with code points in the lowercase ASCII range are fixed by
`Char.ofNat` followed by `Char.toNat`. -/
lemma charOfNat_toNat (m : Nat) (h1 : 97 ≤ m) (h2 : m ≤ 122) :
    (Char.ofNat m).toNat = m := by
  interval_cases m <;> decide

/-- Unfolding of the whitespace test to a proposition on the code point. -/
lemma isPySpace_iff (c : Char) :
    isPySpace c = true ↔
      (c.toNat = 32 ∨ c.toNat = 9 ∨ c.toNat = 10 ∨ c.toNat = 13 ∨
        c.toNat = 11 ∨ c.toNat = 12) := by
  simp [isPySpace, Bool.or_eq_true, decide_eq_true_iff]
  tauto

/-- Case folding never turns a character into whitespace or back. -/
lemma isPySpace_pyLower (c : Char) : isPySpace (pyLower c) = isPySpace c := by
  by_cases h : 65 ≤ c.toNat ∧ c.toNat ≤ 90
  · have h1 : pyLower c = Char.ofNat (c.toNat + 32) := by simp [pyLower, h]
    have ht := charOfNat_toNat (c.toNat + 32) (by omega) (by omega)
    rw [h1, Bool.eq_iff_iff, isPySpace_iff, isPySpace_iff, ht]
    omega
  · simp [pyLower, h]

/-- Case folding is idempotent on characters. -/
lemma pyLower_pyLower (c : Char) : pyLower (pyLower c) = pyLower c := by
  by_cases h : 65 ≤ c.toNat ∧ c.toNat ≤ 90
  · have h1 : pyLower c = Char.ofNat (c.toNat + 32) := by simp [pyLower, h]
    have ht := charOfNat_toNat (c.toNat + 32) (by omega) (by omega)
    rw [h1]
    unfold pyLower
    rw [ht, if_neg (by omega)]
  · simp [pyLower, h]

/-- Dropping a whitespace run in front of a list does not change its
whitespace-free part. -/
lemma filter_dropWhile_isPySpace (l : List Char) :
    (l.dropWhile isPySpace).filter (fun c => !(isPySpace c)) =
      l.filter (fun c => !(isPySpace c)) := by
  induction l with
  | nil => rfl
  | cons a t ih =>
      by_cases ha : isPySpace a
      · simp [List.dropWhile_cons, ha, List.filter_cons, ih]
      · simp [List.dropWhile_cons, ha, List.filter_cons]

/-- Stripping whitespace from both ends does not change the
whitespace-free part of a list. -/
lemma filter_stripChars (l : List Char) :
    (stripChars l).filter (fun c => !(isPySpace c)) =
      l.filter (fun c => !(isPySpace c)) := by
  unfold stripChars
  rw [List.filter_reverse, filter_dropWhile_isPySpace, List.filter_reverse,
    List.reverse_reverse, filter_dropWhile_isPySpace]

/-- Closed form of normalization on strings: lowercase every character, then
delete every whitespace character; stripping first makes no difference. -/
lemma normStr_eq (s : List Char) :
    normStr s = (s.map pyLower).filter (fun c => !(isPySpace c)) := by
  have hq : (fun c => !(isPySpace c)) ∘ pyLower = fun c => !(isPySpace c) := by
    funext c
    simp [Function.comp, isPySpace_pyLower]
  calc normStr s
      = ((stripChars s).map pyLower).filter (fun c => !(isPySpace c)) := rfl
    _ = ((stripChars s).filter ((fun c => !(isPySpace c)) ∘ pyLower)).map pyLower := by
        rw [List.filter_map]
    _ = ((stripChars s).filter (fun c => !(isPySpace c))).map pyLower := by rw [hq]
    _ = (s.filter (fun c => !(isPySpace c))).map pyLower := by rw [filter_stripChars]
    _ = (s.filter ((fun c => !(isPySpace c)) ∘ pyLower)).map pyLower := by rw [hq]
    _ = (s.map pyLower).filter (fun c => !(isPySpace c)) := by rw [List.filter_map]

/-- Dropping whitespace from a list with no whitespace is the identity. -/
lemma dropWhile_isPySpace_eq_self (l : List Char)
    (h : ∀ c ∈ l, isPySpace c = false) : l.dropWhile isPySpace = l := by
  cases l with
  | nil => rfl
  | cons a t => simp [List.dropWhile_cons, h a (List.mem_cons_self a t)]

/-- Stripping a list with no whitespace is the identity. -/
lemma stripChars_eq_self (l : List Char)
    (h : ∀ c ∈ l, isPySpace c = false) : stripChars l = l := by
  unfold stripChars
  rw [dropWhile_isPySpace_eq_self l h,
    dropWhile_isPySpace_eq_self l.reverse (by simpa using h),
    List.reverse_reverse]

end NormalizerLemmas

/-- C6: for every input value, `normalize` returns the empty string on every
non-string (including the missing values `None` and `NaN`), and on a string
returns the input lowercased with every whitespace character (leading,
trailing or internal, of any whitespace kind) removed — which is exactly
trimming, lowercasing and deleting the internal whitespace runs.  The
function is total, so it never raises. -/
theorem normalize_contract :
    normalize PyVal.noneVal = [] ∧ normalize PyVal.nanVal = [] ∧
      (∀ n : Int, normalize (PyVal.intVal n) = []) ∧
      (∀ s : List Char,
        normalize (PyVal.str s) =
          (s.map pyLower).filter (fun c => !(isPySpace c))) :=
  ⟨rfl, rfl, fun _ => rfl, normStr_eq⟩

/-- C7: normalization is idempotent — feeding the normalized string back
through `normalize` changes nothing, for string and non-string inputs
alike. -/
theorem normalize_idempotent (v : PyVal) :
    normalize (PyVal.str (normalize v)) = normalize v := by
  cases v with
  | str s =>
      show normStr (normStr s) = normStr s
      have hmem : ∀ c ∈ normStr s, isPySpace c = false := by
        intro c hc
        rw [normStr_eq] at hc
        simpa using (List.of_mem_filter hc)
      have hlow : ∀ c ∈ normStr s, pyLower c = c := by
        intro c hc
        rw [normStr_eq] at hc
        obtain ⟨x, _, hx⟩ := List.mem_map.mp (List.mem_of_mem_filter hc)
        rw [← hx, pyLower_pyLower]
      show normalize (PyVal.str (normStr s)) = normStr s
      calc normalize (PyVal.str (normStr s))
          = ((stripChars (normStr s)).map pyLower).filter
              (fun c => !(isPySpace c)) := rfl
        _ = ((normStr s).map pyLower).filter (fun c => !(isPySpace c)) := by
            rw [stripChars_eq_self _ hmem]
        _ = (normStr s).filter (fun c => !(isPySpace c)) := by
            rw [List.map_congr_left hlow]
            simp only [List.map_id']
        _ = normStr s := List.filter_eq_self.mpr (by
            intro c hc
            simp [hmem c hc])
  | noneVal => rfl
  | nanVal => rfl
  | intVal n => rfl

section EligibilityLemmas

/-- A list whose whitespace-free suffix-drop is empty is all whitespace. -/
lemma all_isPySpace_of_dropWhile_nil (l : List Char)
    (h : ∀ c ∈ l.dropWhile isPySpace, isPySpace c = true) :
    ∀ c ∈ l, isPySpace c = true := by
  induction l with
  | nil => intro c hc; simp at hc
  | cons a t ih =>
      by_cases ha : isPySpace a
      · intro c hc
        rw [List.dropWhile_cons, if_pos ha] at h
        rcases List.mem_cons.mp hc with hc | hc
        · rw [hc]; exact ha
        · exact ih h c hc
      · rw [List.dropWhile_cons, if_neg ha] at h
        exact h

/-- Stripping yields the empty list exactly when every character of the
input is whitespace (in particular on the empty input). -/
lemma stripChars_eq_nil_iff (l : List Char) :
    stripChars l = [] ↔ ∀ c ∈ l, isPySpace c = true := by
  constructor
  · intro h
    unfold stripChars at h
    rw [List.reverse_eq_nil_iff, List.dropWhile_eq_nil_iff] at h
    have h2 : ∀ c ∈ l.dropWhile isPySpace, isPySpace c = true := by
      intro c hc
      exact h c (by simpa using hc)
    exact all_isPySpace_of_dropWhile_nil l h2
  · intro h
    unfold stripChars
    rw [List.reverse_eq_nil_iff, List.dropWhile_eq_nil_iff]
    intro c hc
    exact h c ((List.dropWhile_sublist isPySpace).subset (by simpa using hc))

end EligibilityLemmas

/-- C8: `should_update` returns true when the overwrite flag is set, and
otherwise exactly when the existing status is a missing value or a string
consisting only of whitespace (including the empty string); for every
non-empty non-whitespace string, and for any number, it returns false. -/
theorem should_update_spec (existing_status : PyVal) (overwrite : Bool) :
    should_update existing_status overwrite = true ↔
      (overwrite = true ∨ isna existing_status = true ∨
        ∃ s, existing_status = PyVal.str s ∧ ∀ c ∈ s, isPySpace c = true) := by
  cases overwrite with
  | true => simp [should_update]
  | false =>
      cases existing_status with
      | str s =>
          simp [should_update, isna, stripChars_eq_nil_iff]
      | noneVal => simp [should_update, isna]
      | nanVal => simp [should_update, isna]
      | intVal n => simp [should_update, isna]

/-- Witness for C8 at a concrete input: a whitespace-only existing status
is eligible for update even without the overwrite flag. -/
theorem should_update_spec_witness :
    should_update (PyVal.str "  ".data) false = true :=
  (should_update_spec (PyVal.str "  ".data) false).mpr
    (Or.inr (Or.inr ⟨"  ".data, rfl, by decide⟩))

section KeywordLemmas

/-- The Boolean substring test agrees with the infix relation. -/
lemma strContains_iff (t sub : List Char) :
    strContains t sub = true ↔ sub <:+: t := by
  induction t with
  | nil =>
      simp [strContains, List.isEmpty_iff]
  | cons c rest ih =>
      simp only [strContains, Bool.or_eq_true, List.isPrefixOf_iff_prefix, ih]
      exact (List.infix_cons_iff).symm

end KeywordLemmas

/-- C2: `keyword_match` normalizes the keyword; an empty normalized keyword
matches nothing; a single-character normalized keyword matches exactly the
subjects equal to it; a normalized keyword of length at least two matches
exactly the subjects containing it as a contiguous substring. -/
theorem keyword_match_spec (t k : List Char) :
    (normStr k = [] → keyword_match t k = false) ∧
      ((normStr k).length = 1 → (keyword_match t k = true ↔ t = normStr k)) ∧
      (2 ≤ (normStr k).length →
        (keyword_match t k = true ↔ normStr k <:+: t)) := by
  refine ⟨fun h => ?_, fun h => ?_, fun h => ?_⟩
  · simp [keyword_match, h]
  · have hne : ¬ normStr k = [] := by
      intro hnil
      rw [hnil] at h
      simp at h
    simp [keyword_match, hne, h, decide_eq_true_iff]
  · have hne : ¬ normStr k = [] := by
      intro hnil
      rw [hnil] at h
      simp at h
    have hone : ¬ (normStr k).length = 1 := by omega
    simp [keyword_match, hne, hone, strContains_iff]

/-- Witness for C2 at concrete inputs: the single-character keyword in the
specification example matches the equal subject and fails on a longer
subject that contains it. -/
theorem keyword_match_spec_witness :
    keyword_match "x".data "x".data = true ∧
      keyword_match "xy".data "x".data = false := by
  constructor
  · exact ((keyword_match_spec "x".data "x".data).2.1 (by decide)).mpr (by decide)
  · have h := (keyword_match_spec "xy".data "x".data).2.1 (by decide)
    cases hb : keyword_match "xy".data "x".data with
    | false => rfl
    | true => exact absurd (h.mp hb) (by decide)

section ScannerLemmas

/-- Every mode of the scanner only ever deletes characters: the output is a
sublist (order-preserving selection) of the remaining input. -/
lemma scanGo_sublist (mode : ScanMode) (s : List Char) :
    scanGo mode s <+ s := by
  induction mode, s using scanGo.induct
  case case1 mode => cases mode <;> simp [scanGo]
  case case2 c rest ih => simpa [scanGo] using ih
  case case3 rest ih => simpa [scanGo] using ih
  case case4 rest h ih => simpa [scanGo] using ih
  case case5 c rest h1 h2 ih => simpa [scanGo, h1, h2] using ih
  case case6 c rest h ih => simpa [scanGo, h] using ih
  case case7 c rest h ih =>
      simp only [scanGo, if_neg h]
      exact ih.trans (List.sublist_cons_self c rest)
  case case8 c => simp [scanGo]
  case case9 c d rest2 h ih =>
      simp only [scanGo, if_pos h]
      exact ih.trans ((List.sublist_cons_self d rest2).trans
        (List.sublist_cons_self c (d :: rest2)))
  case case10 c d rest2 h ih =>
      simp only [scanGo, if_neg h]
      exact ih.trans (List.sublist_cons_self c (d :: rest2))
  case case11 rest2 ih =>
      simp only [scanGo]
      exact ih.trans ((List.sublist_cons_self '/' rest2).trans
        (List.sublist_cons_self '/' ('/' :: rest2)))
  case case12 rest2 ih =>
      simp only [scanGo]
      exact ih.trans ((List.sublist_cons_self '*' rest2).trans
        (List.sublist_cons_self '/' ('*' :: rest2)))
  case case13 rest h1 h2 ih => simpa [scanGo] using ih
  case case14 c rest h1 h2 h3 ih => simpa [scanGo, h1, h2, h3] using ih

/-- On input with no comment markers outside strings, every mode of the
scanner copies its input verbatim. -/
lemma scanGo_id_of_noComment (mode : ScanMode) (s : List Char)
    (h : noComment mode s = true) : scanGo mode s = s := by
  induction mode, s using scanGo.induct
  case case1 mode => cases mode <;> simp [scanGo]
  case case2 c rest ih => simp_all [scanGo, noComment]
  case case3 rest ih => simp_all [scanGo, noComment]
  case case4 rest h1 ih => simp_all [scanGo, noComment]
  case case5 c rest h1 h2 ih => simp_all [scanGo, noComment]
  case case6 c rest h1 ih => simp_all [noComment]
  case case7 c rest h1 ih => simp_all [noComment]
  case case8 c => simp_all [noComment]
  case case9 c d rest2 h1 ih => simp_all [noComment]
  case case10 c d rest2 h1 ih => simp_all [noComment]
  case case11 rest2 ih => simp_all [noComment]
  case case12 rest2 ih => simp_all [noComment]
  case case13 rest h1 h2 ih => simp_all [scanGo, noComment]
  case case14 c rest h1 h2 h3 ih =>
      have hcond : ¬ (c = '/' ∧ (rest.head? = some '/' ∨ rest.head? = some '*')) := by
        rintro ⟨hc, hd | hd⟩
        · cases rest with
          | nil => simp at hd
          | cons d t =>
              rw [List.head?_cons, Option.some_inj] at hd
              exact h1 t hc (by rw [hd])
        · cases rest with
          | nil => simp at hd
          | cons d t =>
              rw [List.head?_cons, Option.some_inj] at hd
              exact h2 t hc (by rw [hd])
      rw [noComment.eq_def] at h
      simp only [if_neg h3, if_neg hcond] at h
      simp_all [scanGo]

/-- The in-string scanner copies the string span verbatim, up to and
including the closing quote, and then continues in normal mode on the
remainder. -/
lemma scanGo_inString_split (e : Bool) (s : List Char) :
    scanGo (ScanMode.inString e) s =
      (splitStr e s).1 ++ scanGo ScanMode.normal (splitStr e s).2 := by
  induction s generalizing e with
  | nil => cases e <;> rfl
  | cons c rest ih =>
      cases e with
      | true => simp [scanGo, splitStr, ih false]
      | false =>
          by_cases hc : c = '\\'
          · simp [scanGo, splitStr, hc, ih true]
          · by_cases hq : c = '"'
            · simp [scanGo, splitStr, hc, hq]
            · simp [scanGo, splitStr, hc, hq, ih false]

/-- The two components of `splitStr` reassemble to the input. -/
lemma splitStr_append (e : Bool) (s : List Char) :
    (splitStr e s).1 ++ (splitStr e s).2 = s := by
  induction s generalizing e with
  | nil => cases e <;> rfl
  | cons c rest ih =>
      cases e with
      | true => simp [splitStr, ih false]
      | false =>
          by_cases hc : c = '\\'
          · simp [splitStr, hc, ih true]
          · by_cases hq : c = '"'
            · simp [splitStr, hc, hq]
            · simp [splitStr, hc, hq, ih false]

end ScannerLemmas

/-- C3: comment stripping is the identity on any text with no slash-slash
or slash-star outside double-quoted strings, and characters inside a
double-quoted string are never altered or dropped: on entering a string the
quote is copied, the whole escape-aware string span up to and including the
closing quote is copied verbatim (`splitStr` names that span, and its two
components reassemble to the input), and scanning resumes after it. -/
theorem strip_json_comments_preserves :
    (∀ s, noComment ScanMode.normal s = true → strip_json_comments s = s) ∧
      (∀ (e : Bool) (s : List Char), (splitStr e s).1 ++ (splitStr e s).2 = s) ∧
      (∀ (e : Bool) (s : List Char),
        scanGo (ScanMode.inString e) s =
          (splitStr e s).1 ++ scanGo ScanMode.normal (splitStr e s).2) ∧
      (∀ s, scanGo ScanMode.normal ('"' :: s) =
        '"' :: scanGo (ScanMode.inString false) s) :=
  ⟨fun s h => scanGo_id_of_noComment ScanMode.normal s h,
    splitStr_append, scanGo_inString_split, fun s => by simp [scanGo]⟩

/-- Witness for C3 at a concrete input: a text whose only slash pairs lie
inside a double-quoted string is returned unchanged, slashes included. -/
theorem strip_json_comments_preserves_witness :
    strip_json_comments "\"a//b/*\" x".data = "\"a//b/*\" x".data :=
  strip_json_comments_preserves.1 ("\"a//b/*\" x".data) (by decide)

/-- C10: the output of comment stripping is a subsequence of the input —
characters are only deleted, never inserted, duplicated, replaced or
reordered — and hence is never longer than the input. -/
theorem strip_json_comments_sublist (s : List Char) :
    strip_json_comments s <+ s ∧
      (strip_json_comments s).length ≤ s.length :=
  ⟨scanGo_sublist ScanMode.normal s,
    (scanGo_sublist ScanMode.normal s).length_le⟩

/-- C4 evaluation: on an unterminated block comment the code does not skip
to the end of the input — the final character of the input survives to the
output (it is re-processed by the scanner because the index advance after
the inner loop is guarded), so input slash-star-x produces x rather than
the empty output demanded by the specification; the remainder is consumed
only when fewer than one character follows the opening marker. -/
theorem strip_unterminated_block_eval :
    strip_json_comments "/*x".data = "x".data ∧
      strip_json_comments "a/*bcd".data = "ad".data ∧
      strip_json_comments "/*".data = [] :=
  ⟨by decide, by decide, by decide⟩

section ClassifyLemmas

/-- The normalized form computed inside `classify_material` agrees with
normalizing the input value directly. -/
lemma normalize_raw (m : PyVal) :
    normStr (match m with | PyVal.str s => s | _ => []) = normalize m := by
  cases m <;> rfl

/-- When no override key normalizes to the input, the override scan finds
nothing. -/
lemma findOverride_eq_none (nz : List Char)
    (l : List (List Char × OverrideEntry))
    (h : ∀ kv ∈ l, normStr kv.1 ≠ nz) :
    findOverride nz l = Option.none := by
  induction l with
  | nil => rfl
  | cons kv rest ih =>
      simp only [findOverride, if_neg (h kv (List.mem_cons_self kv rest))]
      exact ih fun x hx => h x (List.mem_cons_of_mem kv hx)

/-- The override scan returns the first entry, in dictionary order, whose
normalized key equals the input. -/
lemma findOverride_first (nz : List Char)
    (pre : List (List Char × OverrideEntry)) (k : List Char)
    (v : OverrideEntry) (post : List (List Char × OverrideEntry))
    (hpre : ∀ kv ∈ pre, normStr kv.1 ≠ nz) (hk : normStr k = nz) :
    findOverride nz (pre ++ (k, v) :: post) = some v := by
  induction pre with
  | nil => simp [findOverride, hk]
  | cons kv rest ih =>
      simp only [List.cons_append, findOverride,
        if_neg (hpre kv (List.mem_cons_self kv rest))]
      exact ih fun x hx => hpre x (List.mem_cons_of_mem kv hx)

/-- When no keyword of a tier matches, the tier scan finds nothing. -/
lemma findKeyword_eq_none (nz : List Char) (tier : List (List Char))
    (h : ∀ kw ∈ tier, keyword_match nz kw = false) :
    findKeyword nz tier = Option.none := by
  induction tier with
  | nil => rfl
  | cons kw rest ih =>
      have hkw : ¬ keyword_match nz kw = true := by
        simp [h kw (List.mem_cons_self kw rest)]
      simp only [findKeyword, if_neg hkw]
      exact ih fun x hx => h x (List.mem_cons_of_mem kw hx)

/-- The tier scan returns the first keyword, in list order, that matches
the input. -/
lemma findKeyword_first (nz : List Char) (pre : List (List Char))
    (kw : List Char) (post : List (List Char))
    (hpre : ∀ w ∈ pre, keyword_match nz w = false)
    (hkw : keyword_match nz kw = true) :
    findKeyword nz (pre ++ kw :: post) = some kw := by
  induction pre with
  | nil => simp [findKeyword, hkw]
  | cons w rest ih =>
      have hw : ¬ keyword_match nz w = true := by
        simp [hpre w (List.mem_cons_self w rest)]
      simp only [List.cons_append, findKeyword, if_neg hw]
      exact ih fun x hx => hpre x (List.mem_cons_of_mem w hx)

end ClassifyLemmas

/-- C1: `classify_material` evaluates in strict priority order with first
match winning and immediate return.  For a ruleset whose two mandatory keys
are present and whose referenced status keys all exist in the label table:
the first override entry (in definition order) whose normalized key equals
the normalized input decides the result, yielding the label of its status
key and its reason, or the fixed default reason when it has none; when no
override matches, the first matching haram keyword decides, then the first
matching review keyword, then the first matching halal keyword, each with a
reason embedding the matched keyword; overrides beat every keyword tier and
haram beats review beats halal regardless of list position; and when
nothing matches the result is the pair of two absent values. -/
theorem classify_material_priority (m : PyVal) (rs : Ruleset)
    (labels : List (List Char × List Char)) (tiers : Rules)
    (hl : rs.status_labels = some labels) (hr : rs.rules = some tiers)
    (hov : ∀ kv ∈ rs.overrides_exact,
      (lookupLabel labels kv.2.status).isSome = true)
    (hhar : (lookupLabel labels "haram".data).isSome = true)
    (hrev : (lookupLabel labels "review".data).isSome = true)
    (hhal : (lookupLabel labels "halal".data).isSome = true) :
    (∀ pre k v post, rs.overrides_exact = pre ++ (k, v) :: post →
        (∀ kv ∈ pre, normStr kv.1 ≠ normalize m) →
        normStr k = normalize m →
        classify_material m rs =
          Except.ok (lookupLabel labels v.status,
            some (v.reason.getD defaultOverrideReason))) ∧
      ((∀ kv ∈ rs.overrides_exact, normStr kv.1 ≠ normalize m) →
        ∀ pre kw post, tiers.haram_contains = pre ++ kw :: post →
          (∀ w ∈ pre, keyword_match (normalize m) w = false) →
          keyword_match (normalize m) kw = true →
          classify_material m rs =
            Except.ok (lookupLabel labels "haram".data,
              some (haramReasonText ++ kw))) ∧
      ((∀ kv ∈ rs.overrides_exact, normStr kv.1 ≠ normalize m) →
        (∀ w ∈ tiers.haram_contains, keyword_match (normalize m) w = false) →
        ∀ pre kw post, tiers.review_contains = pre ++ kw :: post →
          (∀ w ∈ pre, keyword_match (normalize m) w = false) →
          keyword_match (normalize m) kw = true →
          classify_material m rs =
            Except.ok (lookupLabel labels "review".data,
              some (reviewReasonText ++ kw))) ∧
      ((∀ kv ∈ rs.overrides_exact, normStr kv.1 ≠ normalize m) →
        (∀ w ∈ tiers.haram_contains, keyword_match (normalize m) w = false) →
        (∀ w ∈ tiers.review_contains, keyword_match (normalize m) w = false) →
        ∀ pre kw post, tiers.halal_contains = pre ++ kw :: post →
          (∀ w ∈ pre, keyword_match (normalize m) w = false) →
          keyword_match (normalize m) kw = true →
          classify_material m rs =
            Except.ok (lookupLabel labels "halal".data,
              some (halalReasonText ++ kw))) ∧
      ((∀ kv ∈ rs.overrides_exact, normStr kv.1 ≠ normalize m) →
        (∀ w ∈ tiers.haram_contains, keyword_match (normalize m) w = false) →
        (∀ w ∈ tiers.review_contains, keyword_match (normalize m) w = false) →
        (∀ w ∈ tiers.halal_contains, keyword_match (normalize m) w = false) →
        classify_material m rs = Except.ok (Option.none, Option.none)) := by
  refine ⟨?_, ?_, ?_, ?_, ?_⟩
  · intro pre k v post heq hpre hk
    have hfo : findOverride (normalize m) rs.overrides_exact = some v := by
      rw [heq]
      exact findOverride_first (normalize m) pre k v post hpre hk
    have hv : (k, v) ∈ rs.overrides_exact := by
      rw [heq]
      exact List.mem_append_right pre (List.mem_cons_self (k, v) post)
    obtain ⟨label, hlabel⟩ := Option.isSome_iff_exists.mp (hov (k, v) hv)
    simp only [classify_material, hl, hr, normalize_raw, hfo, hlabel]
  · intro hno pre kw post heq hpre hkw
    have hfo : findOverride (normalize m) rs.overrides_exact = Option.none :=
      findOverride_eq_none (normalize m) rs.overrides_exact hno
    have hfk : findKeyword (normalize m) tiers.haram_contains = some kw := by
      rw [heq]
      exact findKeyword_first (normalize m) pre kw post hpre hkw
    obtain ⟨label, hlabel⟩ := Option.isSome_iff_exists.mp hhar
    simp only [classify_material, hl, hr, normalize_raw, hfo, hfk, hlabel]
  · intro hno hharam pre kw post heq hpre hkw
    have hfo : findOverride (normalize m) rs.overrides_exact = Option.none :=
      findOverride_eq_none (normalize m) rs.overrides_exact hno
    have hfh : findKeyword (normalize m) tiers.haram_contains = Option.none :=
      findKeyword_eq_none (normalize m) tiers.haram_contains hharam
    have hfk : findKeyword (normalize m) tiers.review_contains = some kw := by
      rw [heq]
      exact findKeyword_first (normalize m) pre kw post hpre hkw
    obtain ⟨label, hlabel⟩ := Option.isSome_iff_exists.mp hrev
    simp only [classify_material, hl, hr, normalize_raw, hfo, hfh, hfk, hlabel]
  · intro hno hharam hreview pre kw post heq hpre hkw
    have hfo : findOverride (normalize m) rs.overrides_exact = Option.none :=
      findOverride_eq_none (normalize m) rs.overrides_exact hno
    have hfh : findKeyword (normalize m) tiers.haram_contains = Option.none :=
      findKeyword_eq_none (normalize m) tiers.haram_contains hharam
    have hfr : findKeyword (normalize m) tiers.review_contains = Option.none :=
      findKeyword_eq_none (normalize m) tiers.review_contains hreview
    have hfk : findKeyword (normalize m) tiers.halal_contains = some kw := by
      rw [heq]
      exact findKeyword_first (normalize m) pre kw post hpre hkw
    obtain ⟨label, hlabel⟩ := Option.isSome_iff_exists.mp hhal
    simp only [classify_material, hl, hr, normalize_raw, hfo, hfh, hfr, hfk,
      hlabel]
  · intro hno hharam hreview hhalal
    have hfo : findOverride (normalize m) rs.overrides_exact = Option.none :=
      findOverride_eq_none (normalize m) rs.overrides_exact hno
    have hfh : findKeyword (normalize m) tiers.haram_contains = Option.none :=
      findKeyword_eq_none (normalize m) tiers.haram_contains hharam
    have hfr : findKeyword (normalize m) tiers.review_contains = Option.none :=
      findKeyword_eq_none (normalize m) tiers.review_contains hreview
    have hfl : findKeyword (normalize m) tiers.halal_contains = Option.none :=
      findKeyword_eq_none (normalize m) tiers.halal_contains hhalal
    simp only [classify_material, hl, hr, normalize_raw, hfo, hfh, hfr, hfl]

/-- Witness for C1 at concrete inputs: with the example ruleset, the name
from the specification example matches the haram keyword after an override
miss, and the result carries the haram label with the templated reason. -/
theorem classify_material_priority_witness :
    classify_material (PyVal.str "Pork Gelatin".data) rsEx =
      Except.ok (some "HARAM".data, some (haramReasonText ++ "pork".data)) := by
  have h := (classify_material_priority (PyVal.str "Pork Gelatin".data) rsEx
      labelsEx rulesEx rfl rfl (by decide) (by decide) (by decide)
      (by decide)).2.1 (by decide) [] "pork".data [] rfl (by simp) (by decide)
  exact h.trans rfl

/-- Every run of `classify_material` either raises, or returns the pair of
two absent values, or returns a present label with a present reason. -/
lemma classify_material_shape (m : PyVal) (rs : Ruleset) :
    classify_material m rs = Except.error () ∨
      classify_material m rs = Except.ok (Option.none, Option.none) ∨
      ∃ a b, classify_material m rs = Except.ok (some a, some b) := by
  unfold classify_material
  dsimp only
  repeat' split
  all_goals first
    | exact Or.inl rfl
    | exact Or.inr (Or.inl rfl)
    | exact Or.inr (Or.inr ⟨_, _, rfl⟩)

/-- C9: every non-raising result of `classify_material` has both components
present or both absent — a status always comes with a reason and a reason
always comes with a status. -/
theorem classify_material_paired (m : PyVal) (rs : Ruleset)
    (p : Option (List Char) × Option (List Char))
    (h : classify_material m rs = Except.ok p) :
    (p.1 = Option.none ∧ p.2 = Option.none) ∨
      (∃ a b, p.1 = some a ∧ p.2 = some b) := by
  rcases classify_material_shape m rs with hs | hs | ⟨a, b, hs⟩
  · rw [hs] at h
    exact absurd h (by simp)
  · rw [hs] at h
    obtain rfl : (Option.none, Option.none) = p := by
      injection h
    exact Or.inl ⟨rfl, rfl⟩
  · rw [hs] at h
    obtain rfl : ((some a : Option (List Char)), (some b : Option (List Char))) = p := by
      injection h
    exact Or.inr ⟨a, b, rfl, rfl⟩

/-- Witness for C9 at a concrete input: an unmatched name yields the pair
with both components absent, which satisfies the disjunction. -/
theorem classify_material_paired_witness :
    (((Option.none : Option (List Char)),
        (Option.none : Option (List Char))).1 = Option.none ∧
      ((Option.none : Option (List Char)),
        (Option.none : Option (List Char))).2 = Option.none) ∨
      (∃ a b, ((Option.none : Option (List Char)),
        (Option.none : Option (List Char))).1 = some a ∧
        ((Option.none : Option (List Char)),
          (Option.none : Option (List Char))).2 = some b) :=
  classify_material_paired (PyVal.str "tofu".data) rsEx
    ((Option.none : Option (List Char)), (Option.none : Option (List Char))) rfl

/-- C5 counterexample: the empty JSON object is valid JSON containing
neither `status_labels` nor `rules`, yet `load_rules` succeeds on it — it
does not fail whenever one of those keys is absent, refuting the claim as
stated. -/
theorem load_rules_missing_keys_counterexample :
    load_rules jsonLoadsEmptyObject emptyObjectText = Except.ok emptyRuleset ∧
      emptyRuleset.status_labels = Option.none ∧
      emptyRuleset.rules = Option.none :=
  ⟨rfl, rfl, rfl⟩

/-- C5 amended: `load_rules` merely propagates the JSON parser's verdict on
the comment-stripped text — it fails exactly when that text is not valid
JSON and performs no key validation of its own; the absence of
`status_labels`, or of `rules`, instead makes `classify_material` raise at
its first call. -/
theorem load_rules_no_validation :
    (∀ (loads : List Char → Except Unit Ruleset) (raw_text : List Char),
        loads (strip_json_comments raw_text) = Except.error () →
          load_rules loads raw_text = Except.error ()) ∧
      (∀ (loads : List Char → Except Unit Ruleset) (raw_text : List Char)
          (rs : Ruleset),
        loads (strip_json_comments raw_text) = Except.ok rs →
          load_rules loads raw_text = Except.ok rs) ∧
      (∀ (m : PyVal) (rs : Ruleset), rs.status_labels = Option.none →
        classify_material m rs = Except.error ()) ∧
      (∀ (m : PyVal) (rs : Ruleset) labels, rs.status_labels = some labels →
        rs.rules = Option.none → classify_material m rs = Except.error ()) := by
  refine ⟨fun _ _ h => h, fun _ _ _ h => h, ?_, ?_⟩
  · intro m rs h
    simp only [classify_material, h]
  · intro m rs labels h1 h2
    simp only [classify_material, h1, h2]

/-- Witness for C5 at a concrete input: the configuration parsed from the
empty JSON object makes the first classification call raise. -/
theorem load_rules_no_validation_witness :
    classify_material PyVal.noneVal emptyRuleset = Except.error () :=
  load_rules_no_validation.2.2.1 PyVal.noneVal emptyRuleset rfl

end HalalClassifier
